import Mathlib

/-!
# Verification of the branching-conversation id-tree

A shallow embedding of the conversation id-tree library (`id-tree.ts`):
a generic ordered tree over string identifiers (`IdTree`) and a
conversation layer (`createConversationTree`) that inserts turns with
their content-fragment children, creates branch roots, and serializes
root-to-node paths back into ordered lists of turn payloads.

The JavaScript objects are embedded as flat association lists:
the node index becomes the list of ids in insertion order, the child
arrays become an id-to-children association list, and the parent map
becomes an id-to-parent association list.  Mutation becomes explicit
state passing; `throw` becomes `Except`, with failing operations also
returning the state as mutated up to the point of the throw so that
atomicity is a provable property rather than an artifact of purity.
-/

namespace BranchingSdk

/-! ## Decimal rendering: `Nat.repr` decodes back to the number

The collision-resolution rule appends `-${i}` (decimal) to a base id.
To know the loop terminates on a fresh id we need distinct `i` to give
distinct strings, i.e. injectivity of `Nat.repr`.  We prove it by
exhibiting a decoder for the digit strings `Nat.toDigitsCore` builds. -/

/-- Value of a decimal digit character (inverse of `Nat.digitChar` below 10). -/
def decDigitVal (c : Char) : Nat := c.toNat - 48

/-- Decode a big-endian list of decimal digit characters. -/
def ofDigitChars (l : List Char) : Nat :=
  l.foldl (fun acc c => acc * 10 + decDigitVal c) 0

/-! ## Data model

Each `throw new Error(...)` site of the source gets one constructor,
carrying the ids interpolated into the source's message string. -/

inductive TreeError where
  /-- `Parent "${parentId}" not found.` -/
  | parentNotFound (parentId : String)
  /-- `Duplicate id "${childId}".` -/
  | duplicateId (childId : String)
  /-- `UIMessage.id is required.` -/
  | messageIdRequired
  /-- `Duplicate message id "${id}" detected.` -/
  | duplicateMessage (id : String)
  /-- `Anchor "${anchorId}" not found.` -/
  | anchorNotFound (anchorId : String)
  /-- `Invalid path: node "${id}" is not a child of "${currentId}".` -/
  | invalidPath (nodeId : String) (expectedParentId : String)
  /-- `Target node "${targetNodeId}" not found.` -/
  | targetNotFound (targetId : String)
  /-- `Message "${id}" not found in conversation.` -/
  | messageNotFound (id : String)
deriving DecidableEq

/-- One entry of `UIMessage.parts`: the core reads only `p.type`; the
rest of the fragment is opaque payload, kept here as one text field. -/
structure UIPart where
  type : String
  text : String
deriving DecidableEq

/-- The turn payload: the core reads `id` and `parts` and stores the
whole record; `role` stands for the remaining opaque fields. -/
structure UIMessage where
  id : String
  role : String
  parts : List UIPart
deriving DecidableEq

/-- The `IdTree` class.  The mutable object graph is flattened:
`ids` is the key set of `index` in insertion order, `childrenMap`
holds each node's ordered `children` array, and `parentMap` is the
`parentOf` map (childId -> parentId). -/
structure IdTree where
  rootId : String
  ids : List String
  childrenMap : List (String × List String)
  parentMap : List (String × String)
deriving DecidableEq

namespace IdTree

/-- `constructor(rootId)`: root node with empty children, indexed. -/
def create (rootId : String) : IdTree :=
  { rootId := rootId, ids := [rootId], childrenMap := [(rootId, [])],
    parentMap := [] }

/-- `has(id)`. -/
def has (t : IdTree) (id : String) : Bool := t.ids.contains id

/-- The `children` array of the node `id` (empty for unknown ids). -/
def childrenOf (t : IdTree) (id : String) : List String :=
  (t.childrenMap.lookup id).getD []

/-- `parentIdOf(id)`: `parentOf.get(id) ?? null`. -/
def parentIdOf (t : IdTree) (id : String) : Option String :=
  t.parentMap.lookup id

/-- Append `v` to the children array stored under key `k`. -/
def appendToKey (m : List (String × List String)) (k v : String) :
    List (String × List String) :=
  m.map fun e => if e.1 = k then (e.1, e.2 ++ [v]) else e

/-- `appendChild(parentId, childId)`.  Both guards precede every
mutation in the source, so a failure returns the tree unchanged;
the failing variant still carries the state to make that checkable. -/
def appendChild (t : IdTree) (parentId childId : String) :
    Except (TreeError × IdTree) IdTree :=
  if ¬ (t.ids.contains parentId) then .error (.parentNotFound parentId, t)
  else if t.ids.contains childId then .error (.duplicateId childId, t)
  else .ok
    { rootId := t.rootId
      ids := t.ids ++ [childId]
      childrenMap := appendToKey t.childrenMap parentId childId ++ [(childId, [])]
      parentMap := t.parentMap ++ [(childId, parentId)] }

end IdTree

/-- The result tree of a successful `appendChild`, named for reuse. -/
def appendedTree (t : IdTree) (p c : String) : IdTree :=
  { rootId := t.rootId
    ids := t.ids ++ [c]
    childrenMap := IdTree.appendToKey t.childrenMap p c ++ [(c, [])]
    parentMap := t.parentMap ++ [(c, p)] }

/-! ## Conversation builder -/

/-- `${base}-${i}`: candidate id with a numeric suffix. -/
def suffixed (base : String) (i : Nat) : String :=
  base ++ "-" ++ Nat.repr i

/-- The `while (tree.has(`${base}-${i}`)) i++` loop, fuelled.  Fuel
`t.ids.length + 1` is enough: the suffixed candidates are pairwise
distinct, so the index cannot contain them all (proved below). -/
def nextFreeFrom (t : IdTree) (base : String) : Nat → Nat → Nat
  | i, 0 => i
  | i, fuel + 1 =>
    if t.has (suffixed base i) then nextFreeFrom t base (i + 1) fuel else i

/-- `nextUniqueId(base)`. -/
def nextUniqueId (t : IdTree) (base : String) : String :=
  if ¬ (t.has base) then base
  else suffixed base (nextFreeFrom t base 1 (t.ids.length + 1))

/-- `${parentMessageId}::part-${i}:${p.type}`: derived fragment id base. -/
def partBase (parentMessageId : String) (i : Nat) (ptype : String) : String :=
  parentMessageId ++ "::part-" ++ Nat.repr i ++ ":" ++ ptype

/-- The `attachParts` loop from position `i`.  A failing `appendChild`
propagates together with the tree as mutated so far. -/
def attachPartsFrom (t : IdTree) (parentMessageId : String) (i : Nat) :
    List UIPart → Except (TreeError × IdTree) IdTree
  | [] => .ok t
  | p :: rest =>
    match IdTree.appendChild t parentMessageId
        (nextUniqueId t (partBase parentMessageId i p.type)) with
    | .error e => .error e
    | .ok t' => attachPartsFrom t' parentMessageId (i + 1) rest

/-- `attachParts(parentMessageId, parts)`. -/
def attachParts (t : IdTree) (parentMessageId : String)
    (parts : List UIPart) : Except (TreeError × IdTree) IdTree :=
  attachPartsFrom t parentMessageId 0 parts

/-- The closure state of `createConversationTree`: the tree, the
`messageIndex` registry and the `lastTopLevelId` default-parent tail. -/
structure ConversationTree where
  tree : IdTree
  messageIndex : List (String × UIMessage)
  lastTopLevelId : String
deriving DecidableEq

/-- `createConversationTree(rootId)` (source default: `"conversation"`). -/
def createConversationTree (rootId : String) : ConversationTree :=
  { tree := IdTree.create rootId, messageIndex := [], lastTopLevelId := rootId }

/-- `addMessage(message, parentId?)`.  An error carries the state as
mutated up to the throw site. -/
def addMessage (s : ConversationTree) (message : UIMessage)
    (parentId : Option String) :
    Except (TreeError × ConversationTree) (String × ConversationTree) :=
  if message.id = "" then .error (.messageIdRequired, s)
  else if s.tree.has message.id then
    .error (.duplicateMessage message.id, s)
  else
    match s.tree.appendChild (parentId.getD s.lastTopLevelId) message.id with
    | .error (e, _) => .error (e, s)
    | .ok t1 =>
      match attachParts t1 message.id message.parts with
      | .error (e, t2) => .error (e, { s with tree := t2 })
      | .ok t2 =>
        .ok (message.id,
          { tree := t2
            messageIndex := s.messageIndex ++ [(message.id, message)]
            lastTopLevelId := message.id })

/-- `beginBranch(anchorId, branchLabel)` (source default label:
`"branch"`).  Returns the `branchRootId`. -/
def beginBranch (s : ConversationTree) (anchorId branchLabel : String) :
    Except (TreeError × ConversationTree) (String × ConversationTree) :=
  if ¬ (s.tree.has anchorId) then .error (.anchorNotFound anchorId, s)
  else
    match s.tree.appendChild anchorId
        (nextUniqueId s.tree (anchorId ++ "::" ++ branchLabel)) with
    | .error (e, _) => .error (e, s)
    | .ok t' =>
      .ok (nextUniqueId s.tree (anchorId ++ "::" ++ branchLabel),
        { tree := t'
          messageIndex := s.messageIndex
          lastTopLevelId :=
            nextUniqueId s.tree (anchorId ++ "::" ++ branchLabel) })

/-- `SerializeOptions`: `validate?: boolean`. -/
structure SerializeOptions where
  validate : Option Bool
deriving DecidableEq

/-- `opts?.validate`. -/
def optsValidate (opts : Option SerializeOptions) : Option Bool :=
  match opts with
  | none => none
  | some o => o.validate

/-- `maybeValidate(messages, validate)`: the external-validator call is
commented out in the source, so both branches return the input. -/
def maybeValidate (messages : List UIMessage) (validate : Option Bool) :
    List UIMessage :=
  if validate.getD false then messages else messages

/-- The walk of `serializeFromNodePath`, from node `current`, with the
`out` accumulator.  A step is legal when `id` is in `current`'s
children array; a stored message is collected, structural nodes are
skipped. -/
def serializeWalk (s : ConversationTree) :
    String → List String → List UIMessage → Except TreeError (List UIMessage)
  | _, [], out => .ok out
  | current, id :: rest, out =>
    if (s.tree.childrenOf current).contains id then
      match s.messageIndex.lookup id with
      | some msg => serializeWalk s id rest (out ++ [msg])
      | none => serializeWalk s id rest out
    else .error (.invalidPath id current)

/-- `serializeFromNodePath(nodePath, opts?)`. -/
def serializeFromNodePath (s : ConversationTree) (nodePath : List String)
    (opts : Option SerializeOptions) : Except TreeError (List UIMessage) :=
  if nodePath.length = 0 then .ok (maybeValidate [] (optsValidate opts))
  else
    match serializeWalk s s.tree.rootId nodePath [] with
    | .error e => .error e
    | .ok out => .ok (maybeValidate out (optsValidate opts))

/-- The climb loop of `serializeToNode`:
`while (cur && cur !== tree.root.id) { pathRev.push(cur); cur = parentIdOf(cur) }`,
fuelled; the result is in target-first order (`pathRev`).  The
`cur = ""` disjunct mirrors the falsiness test on the empty string. -/
def climb (t : IdTree) : Nat → String → List String
  | 0, _ => []
  | fuel + 1, cur =>
    if cur = "" ∨ cur = t.rootId then []
    else
      match t.parentMap.lookup cur with
      | none => [cur]
      | some p => cur :: climb t fuel p

/-- `serializeToNode(targetNodeId, opts?)`. -/
def serializeToNode (s : ConversationTree) (targetNodeId : String)
    (opts : Option SerializeOptions) : Except TreeError (List UIMessage) :=
  if ¬ (s.tree.has targetNodeId) then .error (.targetNotFound targetNodeId)
  else
    serializeFromNodePath s
      ((climb s.tree s.tree.ids.length targetNodeId).reverse) opts

/-- The lookup loop of `serializeByMessageIds`. -/
def serializeByIdsLoop (s : ConversationTree) :
    List String → List UIMessage → Except TreeError (List UIMessage)
  | [], out => .ok out
  | id :: rest, out =>
    match s.messageIndex.lookup id with
    | none => .error (.messageNotFound id)
    | some m => serializeByIdsLoop s rest (out ++ [m])

/-- `serializeByMessageIds(messageIds, opts?)`. -/
def serializeByMessageIds (s : ConversationTree) (messageIds : List String)
    (opts : Option SerializeOptions) : Except TreeError (List UIMessage) :=
  match serializeByIdsLoop s messageIds [] with
  | .error e => .error e
  | .ok out => .ok (maybeValidate out (optsValidate opts))

deriving instance DecidableEq for Except

/-! ## Specification-side definitions

These follow the spec's wording, to be compared with the functions
embedded from the source. -/

/-- Spec's `getRootPath(targetId)`: climb parent links to the root,
then reverse into the root-exclusive root-to-target sequence. -/
def getRootPath (t : IdTree) (targetId : String) : List String :=
  (climb t t.ids.length targetId).reverse

/-- Spec characterization of a root path: a parent-link chain starting
just below the root and ending at the target (empty for the root). -/
def IsRootPath (t : IdTree) (target : String) (l : List String) : Prop :=
  List.Chain (fun a b => t.parentMap.lookup b = some a) t.rootId l ∧
    (t.rootId :: l).getLast? = some target

/-- Spec-side first violation of a node path walked from `current`:
the first id that is not a direct child of its predecessor, paired
with the expected parent. -/
def specFirstViolation (t : IdTree) :
    String → List String → Option (String × String)
  | _, [] => none
  | current, id :: rest =>
    if (t.childrenOf current).contains id then specFirstViolation t id rest
    else some (id, current)

/-- Spec-side collection: the registered payloads of the path nodes,
in path order, structural nodes skipped. -/
def specCollectPayloads (s : ConversationTree) (path : List String) :
    List UIMessage :=
  path.filterMap fun id => s.messageIndex.lookup id

/-- A fragment or branch-root id derived from `base` by the collision
rule: the base itself, or the base with a positive numeric suffix. -/
def DerivedFrom (derivedId base : String) : Prop :=
  derivedId = base ∨ ∃ k, 1 ≤ k ∧ derivedId = suffixed base k

/-! ## Well-formedness invariant -/

/-- Structural invariant of the flattened tree, maintained by every
operation of the conversation layer. -/
structure WF (t : IdTree) : Prop where
  nodup : t.ids.Nodup
  root_head : t.ids.head? = some t.rootId
  children_keys : t.childrenMap.map Prod.fst = t.ids
  parent_keys : t.parentMap.map Prod.fst = t.ids.drop 1
  parent_lt : ∀ c p, t.parentMap.lookup c = some p →
    t.ids.indexOf p < t.ids.indexOf c
  parent_mem : ∀ c p, t.parentMap.lookup c = some p →
    p ∈ t.ids ∧ c ∈ t.ids
  edge_iff : ∀ p c, c ∈ t.childrenOf p ↔ t.parentMap.lookup c = some p
  children_nodup : ∀ p, (t.childrenOf p).Nodup
  empty_only_root : ∀ id ∈ t.ids, id ≠ t.rootId → id ≠ ""

/-- States of the conversation layer reachable from a fresh tree by
successful operations. -/
inductive Reachable : ConversationTree → Prop where
  | init (rootId : String) : Reachable (createConversationTree rootId)
  | add (s : ConversationTree) (msg : UIMessage) (parentId : Option String)
      (n : String) (s' : ConversationTree) : Reachable s →
      addMessage s msg parentId = .ok (n, s') → Reachable s'
  | branch (s : ConversationTree) (anchorId label : String)
      (bid : String) (s' : ConversationTree) : Reachable s →
      beginBranch s anchorId label = .ok (bid, s') → Reachable s'

/-- Conversation-level invariant: the tree is well-formed, registered
turns are tree nodes, and the default-parent tail is a tree node. -/
structure WFS (s : ConversationTree) : Prop where
  tw : WF s.tree
  msg_keys : ∀ k, k ∈ s.messageIndex.map Prod.fst → k ∈ s.tree.ids
  last_mem : s.lastTopLevelId ∈ s.tree.ids

/-! ## Concrete fixture states (mirroring the repository's tests) -/

/-- Step helper for fixtures: the post-state of an `addMessage` call
(the call itself is proved successful where used). -/
def stepAdd (s : ConversationTree) (m : UIMessage) (pid : Option String) :
    ConversationTree :=
  match addMessage s m pid with
  | .ok (_, s2) => s2
  | .error _ => s

/-- Step helper for fixtures: the post-state of a `beginBranch` call. -/
def stepBranch (s : ConversationTree) (anchorId label : String) :
    ConversationTree :=
  match beginBranch s anchorId label with
  | .ok (_, s2) => s2
  | .error _ => s

def exU1 : UIMessage := ⟨"U1", "user", [⟨"text", "hi"⟩]⟩
def exA1 : UIMessage := ⟨"A1", "assistant", [⟨"text", "hello"⟩]⟩
def exU1edit : UIMessage := ⟨"U1_edit", "user", [⟨"text", "hi (edited)"⟩]⟩
def exA2 : UIMessage := ⟨"A2", "assistant", [⟨"text", "hello again"⟩]⟩
def exCollider : UIMessage := ⟨"U1::part-0:text", "user", [⟨"text", "dummy"⟩]⟩

def exS0 : ConversationTree := createConversationTree "conv"
def exS1 : ConversationTree := stepAdd exS0 exU1 none
def exS2 : ConversationTree := stepAdd exS1 exA1 none
def exS3 : ConversationTree := stepBranch exS2 "A1" "edit"
def exS4 : ConversationTree := stepAdd exS3 exU1edit (some "A1::edit")
def exS5 : ConversationTree := stepAdd exS4 exA2 (some "A1::edit")
def exSC0 : ConversationTree := stepAdd exS0 exCollider none
def exSC1 : ConversationTree := stepAdd exSC0 exU1 none

/-! ## Association-list helper lemmas -/

theorem lookup_append_left {α β : Type} [BEq α] [LawfulBEq α]
    {l₁ : List (α × β)} (l₂ : List (α × β)) {k : α} {v : β}
    (h : l₁.lookup k = some v) : (l₁ ++ l₂).lookup k = some v := by
  induction l₁ with
  | nil => simp [List.lookup] at h
  | cons a l ih =>
    obtain ⟨a1, a2⟩ := a
    cases hk : k == a1 with
    | true => simpa [List.lookup, hk] using h
    | false =>
      simp only [List.cons_append, List.lookup, hk] at h ⊢
      exact ih h

theorem lookup_append_right {α β : Type} [BEq α] [LawfulBEq α]
    {l₁ : List (α × β)} (l₂ : List (α × β)) {k : α}
    (h : k ∉ l₁.map Prod.fst) : (l₁ ++ l₂).lookup k = l₂.lookup k := by
  induction l₁ with
  | nil => simp
  | cons a l ih =>
    simp only [List.map_cons, List.mem_cons] at h
    push_neg at h
    simp only [List.cons_append, List.lookup]
    have : (k == a.1) = false := beq_false_of_ne h.1
    simp only [this, Bool.false_eq_true, if_false]
    exact ih h.2

theorem lookup_mem_keys {α β : Type} [BEq α] [LawfulBEq α]
    {l : List (α × β)} {k : α} {v : β}
    (h : l.lookup k = some v) : k ∈ l.map Prod.fst ∧ (k, v) ∈ l := by
  induction l with
  | nil => simp [List.lookup] at h
  | cons a l ih =>
    simp only [List.lookup] at h
    by_cases hk : k == a.1
    · simp only [hk, if_true] at h
      have hk' : k = a.1 := eq_of_beq hk
      obtain ⟨a1, a2⟩ := a
      cases h
      simp_all
    · simp only [hk, Bool.false_eq_true, if_false] at h
      obtain ⟨h1, h2⟩ := ih h
      exact ⟨by simp [h1], by simp [h2]⟩

theorem mem_keys_lookup {α β : Type} [BEq α] [LawfulBEq α]
    {l : List (α × β)} {k : α}
    (h : k ∈ l.map Prod.fst) : ∃ v, l.lookup k = some v := by
  induction l with
  | nil => simp at h
  | cons a l ih =>
    simp only [List.map_cons, List.mem_cons] at h
    by_cases hk : k = a.1
    · exact ⟨a.2, by simp [List.lookup, hk]⟩
    · obtain ⟨v, hv⟩ := ih (h.resolve_left hk)
      refine ⟨v, ?_⟩
      simp only [List.lookup, beq_false_of_ne hk, Bool.false_eq_true, if_false]
      exact hv

theorem lookup_eq_none_of_not_mem {α β : Type} [BEq α] [LawfulBEq α]
    {l : List (α × β)} {k : α}
    (h : k ∉ l.map Prod.fst) : l.lookup k = none := by
  cases hl : l.lookup k with
  | none => rfl
  | some v => exact absurd (lookup_mem_keys hl).1 h

theorem ofDigitChars_append (l : List Char) (c : Char) :
    ofDigitChars (l ++ [c]) = ofDigitChars l * 10 + decDigitVal c := by
  simp [ofDigitChars, List.foldl_append]

theorem decDigitVal_digitChar {d : Nat} (h : d < 10) :
    decDigitVal (Nat.digitChar d) = d := by
  interval_cases d <;> rfl

theorem toDigitsCore_acc (f : Nat) : ∀ (n : Nat) (l : List Char),
    Nat.toDigitsCore 10 f n l = Nat.toDigitsCore 10 f n [] ++ l := by
  induction f with
  | zero => intro n l; simp [Nat.toDigitsCore]
  | succ f ih =>
    intro n l
    simp only [Nat.toDigitsCore]
    by_cases h : n / 10 = 0
    · simp [h]
    · simp only [h, if_false]
      rw [ih (n / 10) (Nat.digitChar (n % 10) :: l),
          ih (n / 10) [Nat.digitChar (n % 10)]]
      simp

theorem toDigitsCore_decode : ∀ (n f : Nat), n < f →
    ofDigitChars (Nat.toDigitsCore 10 f n []) = n := by
  intro n
  induction n using Nat.strong_induction_on with
  | _ n ih =>
    intro f hf
    match f, hf with
    | f + 1, hf =>
      simp only [Nat.toDigitsCore]
      by_cases h : n / 10 = 0
      · have hn : n < 10 := by omega
        simp only [h, if_true]
        show ofDigitChars ([] ++ [Nat.digitChar (n % 10)]) = n
        rw [ofDigitChars_append,
          decDigitVal_digitChar (show n % 10 < 10 by omega)]
        simp only [ofDigitChars, List.foldl_nil]
        omega
      · have hn10 : 10 ≤ n := by
          by_contra hc
          exact h (Nat.div_eq_of_lt (by omega))
        have hdiv_lt : n / 10 < n := Nat.div_lt_self (by omega) (by omega)
        have hdiv_f : n / 10 < f := by omega
        simp only [h, if_false]
        rw [toDigitsCore_acc, ofDigitChars_append,
          ih (n / 10) hdiv_lt f hdiv_f,
          decDigitVal_digitChar (Nat.mod_lt n (by omega))]
        omega

theorem repr_decode (n : Nat) : ofDigitChars (Nat.repr n).data = n := by
  show ofDigitChars ((Nat.toDigits 10 n).asString).data = n
  have : ((Nat.toDigits 10 n).asString).data = Nat.toDigits 10 n := rfl
  rw [this]
  exact toDigitsCore_decode n (n + 1) (Nat.lt_succ_self n)

theorem nat_repr_injective : Function.Injective Nat.repr := by
  intro m n h
  have := repr_decode m
  rw [h, repr_decode] at this
  omega

/-! ## Lemmas: membership and the collision-resolution rule -/

theorem has_iff (t : IdTree) (id : String) : t.has id = true ↔ id ∈ t.ids :=
  List.elem_iff

theorem has_false_iff (t : IdTree) (id : String) :
    t.has id = false ↔ id ∉ t.ids := by
  rw [← Bool.not_eq_true, has_iff]

theorem suffixed_inj {base : String} {i j : Nat}
    (h : suffixed base i = suffixed base j) : i = j := by
  unfold suffixed at h
  have hdata : (base ++ "-").data ++ (Nat.repr i).data =
      (base ++ "-").data ++ (Nat.repr j).data := by
    have h1 : (base ++ "-" ++ Nat.repr i).data =
        (base ++ "-").data ++ (Nat.repr i).data := String.data_append _ _
    have h2 : (base ++ "-" ++ Nat.repr j).data =
        (base ++ "-").data ++ (Nat.repr j).data := String.data_append _ _
    rw [← h1, ← h2, h]
  have := List.append_cancel_left hdata
  have hi := repr_decode i
  rw [show (Nat.repr i).data = (Nat.repr j).data from this, repr_decode] at hi
  omega

theorem suffixed_ne_empty (base : String) (i : Nat) : suffixed base i ≠ "" := by
  intro h
  have h0 : (suffixed base i).length = 0 := by rw [h]; rfl
  unfold suffixed at h0
  rw [String.length_append, String.length_append] at h0
  have h1 : ("-" : String).length = 1 := rfl
  omega

/-- Pigeonhole for the collision loop: among the first
`t.ids.length + 1` suffixed candidates, one is not in the index. -/
theorem exists_fresh_suffix (t : IdTree) (base : String) :
    ∃ j, 1 ≤ j ∧ j < 1 + (t.ids.length + 1) ∧
      t.has (suffixed base j) = false := by
  by_contra hall
  push_neg at hall
  have hmem : ∀ j, 1 ≤ j → j < t.ids.length + 2 → suffixed base j ∈ t.ids := by
    intro j h1 h2
    have hne := hall j h1 (by omega)
    cases hb : t.has (suffixed base j) with
    | false => exact absurd hb hne
    | true => exact (has_iff _ _).1 hb
  set L : List String :=
    (List.range (t.ids.length + 1)).map (fun k => suffixed base (k + 1)) with hL
  have hnodup : L.Nodup := by
    refine List.Nodup.map ?_ (List.nodup_range _)
    intro a b hab
    have := suffixed_inj hab
    omega
  have hsub : ∀ x ∈ L, x ∈ t.ids := by
    intro x hx
    rw [hL, List.mem_map] at hx
    obtain ⟨k, hk, rfl⟩ := hx
    rw [List.mem_range] at hk
    exact hmem (k + 1) (by omega) (by omega)
  have hcard : L.toFinset.card ≤ t.ids.toFinset.card := by
    apply Finset.card_le_card
    intro x hx
    rw [List.mem_toFinset] at hx ⊢
    exact hsub x hx
  rw [List.toFinset_card_of_nodup hnodup] at hcard
  have hlen : L.length = t.ids.length + 1 := by simp [hL]
  have := List.toFinset_card_le t.ids
  omega

theorem nextFreeFrom_ge (t : IdTree) (base : String) :
    ∀ fuel i, i ≤ nextFreeFrom t base i fuel := by
  intro fuel
  induction fuel with
  | zero => intro i; simp [nextFreeFrom]
  | succ fuel ih =>
    intro i
    unfold nextFreeFrom
    split
    · exact le_trans (by omega) (ih (i + 1))
    · exact le_refl i

theorem nextFreeFrom_min (t : IdTree) (base : String) :
    ∀ fuel i j, i ≤ j → j < nextFreeFrom t base i fuel →
      t.has (suffixed base j) = true := by
  intro fuel
  induction fuel with
  | zero => intro i j h1 h2; simp [nextFreeFrom] at h2; omega
  | succ fuel ih =>
    intro i j h1 h2
    unfold nextFreeFrom at h2
    cases hocc : t.has (suffixed base i) with
    | true =>
      simp only [hocc] at h2
      simp at h2
      rcases Nat.eq_or_lt_of_le h1 with rfl | hlt
      · exact hocc
      · exact ih (i + 1) j hlt h2
    | false =>
      simp only [hocc] at h2
      simp at h2
      omega

theorem nextFreeFrom_free (t : IdTree) (base : String) :
    ∀ fuel i, (∃ j, i ≤ j ∧ j < i + fuel ∧ t.has (suffixed base j) = false) →
      t.has (suffixed base (nextFreeFrom t base i fuel)) = false := by
  intro fuel
  induction fuel with
  | zero => intro i ⟨j, h1, h2, _⟩; omega
  | succ fuel ih =>
    intro i ⟨j, h1, h2, hfree⟩
    unfold nextFreeFrom
    by_cases hocc : t.has (suffixed base i)
    · simp only [hocc, if_true]
      apply ih
      refine ⟨j, ?_, by omega, hfree⟩
      rcases Nat.eq_or_lt_of_le h1 with rfl | hlt
      · rw [hocc] at hfree; cases hfree
      · omega
    · simp only [hocc, if_false]
      exact Bool.not_eq_true _ ▸ (by simpa using hocc)

theorem nextUniqueId_fresh (t : IdTree) (base : String) :
    t.has (nextUniqueId t base) = false := by
  unfold nextUniqueId
  by_cases hb : t.has base
  · simp only [hb, not_true, if_false]
    apply nextFreeFrom_free
    obtain ⟨j, h1, h2, hfree⟩ := exists_fresh_suffix t base
    exact ⟨j, h1, h2, hfree⟩
  · simp only [hb]
    simpa using hb

theorem nextUniqueId_derived (t : IdTree) (base : String) :
    DerivedFrom (nextUniqueId t base) base := by
  unfold nextUniqueId
  by_cases hb : t.has base
  · simp only [hb, not_true, if_false]
    exact Or.inr ⟨nextFreeFrom t base 1 (t.ids.length + 1),
      nextFreeFrom_ge t base _ 1, rfl⟩
  · simp only [hb, not_false_iff, if_true]
    exact Or.inl rfl

theorem nextUniqueId_ne_empty (t : IdTree) {base : String} (h : base ≠ "") :
    nextUniqueId t base ≠ "" := by
  unfold nextUniqueId
  by_cases hb : t.has base
  · simp only [hb, not_true, if_false]
    exact suffixed_ne_empty base _
  · simpa [hb] using h

/-! ## Lemmas: `appendChild` -/

theorem appendToKey_keys (m : List (String × List String)) (k v : String) :
    (IdTree.appendToKey m k v).map Prod.fst = m.map Prod.fst := by
  induction m with
  | nil => rfl
  | cons e m ih =>
    simp only [IdTree.appendToKey, List.map_cons] at ih ⊢
    by_cases he : e.1 = k <;> simp [he, ih]

theorem appendToKey_cons (e1 : String) (e2 : List String)
    (m : List (String × List String)) (k v : String) :
    IdTree.appendToKey ((e1, e2) :: m) k v =
      (if e1 = k then (e1, e2 ++ [v]) else (e1, e2)) ::
        IdTree.appendToKey m k v := rfl

theorem appendToKey_lookup_self {m : List (String × List String)}
    {k : String} {cl : List String} (h : m.lookup k = some cl) (v : String) :
    (IdTree.appendToKey m k v).lookup k = some (cl ++ [v]) := by
  induction m with
  | nil => simp [List.lookup] at h
  | cons e m ih =>
    obtain ⟨e1, e2⟩ := e
    rw [appendToKey_cons]
    by_cases he : e1 = k
    · rw [if_pos he]
      subst he
      simp only [List.lookup, beq_self_eq_true] at h ⊢
      injection h with h2
      rw [h2]
    · rw [if_neg he]
      have hbk : (k == e1) = false := beq_false_of_ne fun hc => he hc.symm
      simp only [List.lookup, hbk] at h ⊢
      exact ih h

theorem appendToKey_lookup_other (m : List (String × List String))
    (k v y : String) (hy : y ≠ k) :
    (IdTree.appendToKey m k v).lookup y = m.lookup y := by
  induction m with
  | nil => rfl
  | cons e m ih =>
    obtain ⟨e1, e2⟩ := e
    rw [appendToKey_cons]
    by_cases he : e1 = k
    · rw [if_pos he]
      subst he
      have hbk : (y == e1) = false := beq_false_of_ne hy
      simp only [List.lookup, hbk]
      exact ih
    · rw [if_neg he]
      cases hk : y == e1 with
      | true => simp only [List.lookup, hk]
      | false =>
        simp only [List.lookup, hk]
        exact ih

/-- Successful `appendChild`: both guards pass and the three
components are extended. -/
theorem appendChild_ok {t : IdTree} {p c : String}
    (hp : p ∈ t.ids) (hc : c ∉ t.ids) :
    t.appendChild p c = .ok (appendedTree t p c) := by
  unfold IdTree.appendChild
  rw [if_neg (by simpa using hp), if_neg (by simpa using hc)]
  rfl

theorem appendChild_cases {t : IdTree} {p c : String} {r}
    (h : t.appendChild p c = r) :
    (p ∉ t.ids ∧ r = .error (.parentNotFound p, t)) ∨
    (p ∈ t.ids ∧ c ∈ t.ids ∧ r = .error (.duplicateId c, t)) ∨
    (p ∈ t.ids ∧ c ∉ t.ids ∧ r = .ok (appendedTree t p c)) := by
  unfold IdTree.appendChild at h
  by_cases hp : p ∈ t.ids
  · by_cases hc : c ∈ t.ids
    · refine Or.inr (Or.inl ⟨hp, hc, ?_⟩)
      rw [if_neg (by simpa using hp), if_pos (by simpa using hc)] at h
      exact h.symm
    · refine Or.inr (Or.inr ⟨hp, hc, ?_⟩)
      rw [if_neg (by simpa using hp), if_neg (by simpa using hc)] at h
      exact h.symm
  · refine Or.inl ⟨hp, ?_⟩
    rw [if_pos (by simpa using hp)] at h
    exact h.symm

theorem appendChild_error_state {t : IdTree} {p c : String}
    {e : TreeError} {t' : IdTree}
    (h : t.appendChild p c = .error (e, t')) : t' = t := by
  rcases appendChild_cases h with ⟨_, he⟩ | ⟨_, _, he⟩ | ⟨_, _, he⟩
  · simp only [Except.error.injEq, Prod.mk.injEq] at he
    exact he.2
  · simp only [Except.error.injEq, Prod.mk.injEq] at he
    exact he.2
  · cases he

theorem appendChild_ok_inv {t : IdTree} {p c : String} {t' : IdTree}
    (h : t.appendChild p c = .ok t') :
    p ∈ t.ids ∧ c ∉ t.ids ∧ t' = appendedTree t p c := by
  rcases appendChild_cases h with ⟨_, he⟩ | ⟨_, _, he⟩ | ⟨hp, hc, he⟩
  · cases he
  · cases he
  · injection he with h1
    exact ⟨hp, hc, h1⟩

/-! ## Lemmas: the structural invariant is preserved -/

theorem lookup_snoc_ne {α β : Type} [BEq α] [LawfulBEq α]
    (l : List (α × β)) (c : α) (p : β) {y : α} (hy : y ≠ c) :
    (l ++ [(c, p)]).lookup y = l.lookup y := by
  by_cases hm : y ∈ l.map Prod.fst
  · obtain ⟨v, hv⟩ := mem_keys_lookup hm
    rw [lookup_append_left _ hv, hv]
  · rw [lookup_append_right _ hm, lookup_eq_none_of_not_mem hm]
    simp [List.lookup, beq_false_of_ne hy]

theorem lookup_snoc_self {α β : Type} [BEq α] [LawfulBEq α]
    {l : List (α × β)} {c : α} (p : β) (hm : c ∉ l.map Prod.fst) :
    (l ++ [(c, p)]).lookup c = some p := by
  rw [lookup_append_right _ hm]
  simp [List.lookup]

theorem wf_ids_cons {t : IdTree} (w : WF t) :
    ∃ rest, t.ids = t.rootId :: rest := by
  have h := w.root_head
  cases hids : t.ids with
  | nil =>
    rw [hids] at h
    cases h
  | cons a rest =>
    rw [hids] at h
    simp only [List.head?_cons] at h
    injection h with h1
    exact ⟨rest, by rw [h1]⟩

theorem wf_root_mem {t : IdTree} (w : WF t) : t.rootId ∈ t.ids := by
  obtain ⟨rest, h⟩ := wf_ids_cons w
  rw [h]; exact List.mem_cons_self _ _

theorem wf_not_mem_parent_keys {t : IdTree} (w : WF t) {c : String}
    (hc : c ∉ t.ids) : c ∉ t.parentMap.map Prod.fst := by
  rw [w.parent_keys]
  intro hmem
  exact hc (List.mem_of_mem_drop hmem)

theorem wf_root_no_parent {t : IdTree} (w : WF t) :
    t.parentMap.lookup t.rootId = none := by
  apply lookup_eq_none_of_not_mem
  rw [w.parent_keys]
  obtain ⟨rest, h⟩ := wf_ids_cons w
  rw [h]
  intro hmem
  simp only [List.drop_succ_cons, List.drop_zero] at hmem
  have := w.nodup
  rw [h] at this
  exact (List.nodup_cons.1 this).1 hmem

theorem wf_children_entry {t : IdTree} (w : WF t) {id : String}
    (h : id ∈ t.ids) : ∃ cl, t.childrenMap.lookup id = some cl := by
  apply mem_keys_lookup
  rw [w.children_keys]
  exact h

theorem wf_children_sub {t : IdTree} (w : WF t) {p c : String}
    (h : c ∈ t.childrenOf p) : c ∈ t.ids :=
  ((w.parent_mem c p) ((w.edge_iff p c).1 h)).2

theorem wf_parent_total {t : IdTree} (w : WF t) {x : String}
    (hx : x ∈ t.ids) (hroot : x ≠ t.rootId) :
    ∃ p, t.parentMap.lookup x = some p := by
  apply mem_keys_lookup
  rw [w.parent_keys]
  obtain ⟨rest, h⟩ := wf_ids_cons w
  rw [h] at hx ⊢
  simp only [List.drop_succ_cons, List.drop_zero]
  rcases List.mem_cons.1 hx with h1 | h1
  · exact absurd h1 hroot
  · exact h1

theorem appendedTree_childrenOf_parent_entry {t : IdTree} {p : String}
    (hpk : p ∈ t.childrenMap.map Prod.fst) (c : String) :
    (appendedTree t p c).childrenOf p = t.childrenOf p ++ [c] := by
  obtain ⟨cl, hcl⟩ := mem_keys_lookup hpk
  unfold appendedTree IdTree.childrenOf
  rw [lookup_append_left _ (appendToKey_lookup_self hcl c), hcl]
  rfl

theorem appendedTree_childrenOf_parent {t : IdTree} (w : WF t) {p : String}
    (hp : p ∈ t.ids) (c : String) :
    (appendedTree t p c).childrenOf p = t.childrenOf p ++ [c] :=
  appendedTree_childrenOf_parent_entry (by rw [w.children_keys]; exact hp) c

theorem appendedTree_childrenOf_new_entry {t : IdTree} {p c : String}
    (hck : c ∉ t.childrenMap.map Prod.fst) :
    (appendedTree t p c).childrenOf c = [] := by
  unfold appendedTree IdTree.childrenOf
  have h3 : c ∉ (IdTree.appendToKey t.childrenMap p c).map Prod.fst := by
    rwa [appendToKey_keys]
  rw [lookup_append_right _ h3]
  simp [List.lookup]

theorem appendedTree_childrenOf_new {t : IdTree} (w : WF t) {p c : String}
    (hc : c ∉ t.ids) :
    (appendedTree t p c).childrenOf c = [] :=
  appendedTree_childrenOf_new_entry (by rw [w.children_keys]; exact hc)

theorem appendedTree_childrenOf_other (t : IdTree) {p c y : String}
    (hyp : y ≠ p) (hyc : y ≠ c) :
    (appendedTree t p c).childrenOf y = t.childrenOf y := by
  unfold appendedTree IdTree.childrenOf
  have h1 : (IdTree.appendToKey t.childrenMap p c).lookup y =
      t.childrenMap.lookup y := appendToKey_lookup_other _ _ _ _ hyp
  by_cases hm : y ∈ t.childrenMap.map Prod.fst
  · obtain ⟨v, hv⟩ := mem_keys_lookup hm
    rw [lookup_append_left _ (h1.trans hv), hv]
  · have h3 : y ∉ (IdTree.appendToKey t.childrenMap p c).map Prod.fst := by
      rwa [appendToKey_keys]
    rw [lookup_append_right _ h3, lookup_eq_none_of_not_mem hm]
    simp [List.lookup, beq_false_of_ne hyc]

theorem appendedTree_parent_new {t : IdTree} (w : WF t) {p c : String}
    (hc : c ∉ t.ids) :
    (appendedTree t p c).parentMap.lookup c = some p :=
  lookup_snoc_self p (wf_not_mem_parent_keys w hc)

theorem appendedTree_parent_other (t : IdTree) (p : String) {c y : String}
    (hyc : y ≠ c) :
    (appendedTree t p c).parentMap.lookup y = t.parentMap.lookup y :=
  lookup_snoc_ne _ _ _ hyc

/-- `appendChild` preserves the invariant (for a nonempty child id). -/
theorem wf_appendChild {t : IdTree} {p c : String} (w : WF t)
    (hp : p ∈ t.ids) (hc : c ∉ t.ids) (hce : c ≠ "") :
    WF (appendedTree t p c) := by
  have hcp : c ≠ p := fun h => hc (h ▸ hp)
  obtain ⟨rest, hids⟩ := wf_ids_cons w
  refine ⟨?_, ?_, ?_, ?_, ?_, ?_, ?_, ?_, ?_⟩
  · exact List.Nodup.append w.nodup (List.nodup_singleton c)
      (fun a ha hb => by rw [List.mem_singleton] at hb; exact hc (hb ▸ ha))
  · show (t.ids ++ [c]).head? = some t.rootId
    rw [hids]; rfl
  · show (IdTree.appendToKey t.childrenMap p c ++ [(c, [])]).map Prod.fst =
      t.ids ++ [c]
    rw [List.map_append, appendToKey_keys, w.children_keys]
    rfl
  · show (t.parentMap ++ [(c, p)]).map Prod.fst = (t.ids ++ [c]).drop 1
    rw [List.map_append, w.parent_keys, hids]
    rfl
  · intro y q hlk
    show (t.ids ++ [c]).indexOf q < (t.ids ++ [c]).indexOf y
    by_cases hyc : y = c
    · rw [hyc, appendedTree_parent_new w hc] at hlk
      injection hlk with h1
      rw [hyc, ← h1, List.indexOf_append_of_mem hp,
        List.indexOf_append_of_not_mem hc]
      have h2 : ([c] : List String).indexOf c = 0 := by simp
      rw [h2, Nat.add_zero]
      exact List.indexOf_lt_length.mpr hp
    · rw [appendedTree_parent_other t p hyc] at hlk
      have h3 := w.parent_lt y q hlk
      obtain ⟨hq, hy⟩ := w.parent_mem y q hlk
      rw [List.indexOf_append_of_mem hq, List.indexOf_append_of_mem hy]
      exact h3
  · intro y q hlk
    show q ∈ t.ids ++ [c] ∧ y ∈ t.ids ++ [c]
    by_cases hyc : y = c
    · rw [hyc, appendedTree_parent_new w hc] at hlk
      injection hlk with h1
      rw [hyc, ← h1]
      exact ⟨List.mem_append_left _ hp, List.mem_append_right _ (by simp)⟩
    · rw [appendedTree_parent_other t p hyc] at hlk
      obtain ⟨hq, hy⟩ := w.parent_mem y q hlk
      exact ⟨List.mem_append_left _ hq, List.mem_append_left _ hy⟩
  · intro px cx
    by_cases hpx : px = p
    · rw [hpx, appendedTree_childrenOf_parent w hp c]
      by_cases hcx : cx = c
      · rw [hcx, appendedTree_parent_new w hc]
        simp
      · rw [appendedTree_parent_other t p hcx, List.mem_append,
          List.mem_singleton]
        have hedge := w.edge_iff p cx
        constructor
        · rintro (h1 | h1)
          · exact hedge.1 h1
          · exact absurd h1 hcx
        · intro h1
          exact Or.inl (hedge.2 h1)
    · by_cases hpxc : px = c
      · rw [hpxc, appendedTree_childrenOf_new w hc]
        simp only [List.not_mem_nil, false_iff]
        intro hlk
        by_cases hcx : cx = c
        · rw [hcx, appendedTree_parent_new w hc] at hlk
          injection hlk with h1
          exact hcp h1.symm
        · rw [appendedTree_parent_other t p hcx] at hlk
          exact hc (w.parent_mem cx c hlk).1
      · rw [appendedTree_childrenOf_other t hpx hpxc]
        by_cases hcx : cx = c
        · rw [hcx, appendedTree_parent_new w hc]
          constructor
          · intro h1
            exact absurd (wf_children_sub w h1) hc
          · intro h1
            injection h1 with h2
            exact absurd h2.symm hpx
        · rw [appendedTree_parent_other t p hcx]
          exact w.edge_iff px cx
  · intro px
    by_cases hpx : px = p
    · rw [hpx, appendedTree_childrenOf_parent w hp c]
      exact List.Nodup.append (w.children_nodup p) (List.nodup_singleton c)
        (fun a ha hb => by
          rw [List.mem_singleton] at hb
          exact hc (hb ▸ wf_children_sub w ha))
    · by_cases hpxc : px = c
      · rw [hpxc, appendedTree_childrenOf_new w hc]
        exact List.nodup_nil
      · rw [appendedTree_childrenOf_other t hpx hpxc]
        exact w.children_nodup px
  · intro id hid hroot
    show id ≠ ""
    rcases List.mem_append.1 hid with h1 | h1
    · exact w.empty_only_root id h1 hroot
    · rw [List.mem_singleton] at h1
      exact h1 ▸ hce

/-! ## Lemmas: `attachParts` -/

theorem partBase_ne_empty (pid : String) (i : Nat) (ptype : String) :
    partBase pid i ptype ≠ "" := by
  intro h
  have h0 : (partBase pid i ptype).length = 0 := by rw [h]; rfl
  unfold partBase at h0
  rw [String.length_append, String.length_append, String.length_append,
    String.length_append] at h0
  have h1 : ("::part-" : String).length = 7 := rfl
  omega

/-- Full characterization of a run of the `attachParts` loop from a
state whose index and children map contain `pid`: it succeeds, appends
one freshly derived fragment node per part, in order, as children of
`pid`, and touches nothing else. -/
theorem attachPartsFrom_spec :
    ∀ (parts : List UIPart) (t : IdTree) (pid : String) (i : Nat),
      pid ∈ t.ids → pid ∈ t.childrenMap.map Prod.fst →
      ∃ (t' : IdTree) (frag : List String),
        attachPartsFrom t pid i parts = .ok t' ∧
        t'.rootId = t.rootId ∧
        t'.ids = t.ids ++ frag ∧
        t'.childrenMap.map Prod.fst = t.childrenMap.map Prod.fst ++ frag ∧
        t'.parentMap = t.parentMap ++ frag.map (fun f => (f, pid)) ∧
        t'.childrenOf pid = t.childrenOf pid ++ frag ∧
        frag.length = parts.length ∧
        (∀ j pj, parts[j]? = some pj → ∃ fid, frag[j]? = some fid ∧
          fid ∉ t.ids ∧ DerivedFrom fid (partBase pid (i + j) pj.type)) := by
  intro parts
  induction parts with
  | nil =>
    intro t pid i hp _
    exact ⟨t, [], rfl, rfl, by simp, by simp, by simp, by simp, rfl,
      fun j pj hj => by simp at hj⟩
  | cons p rest ih =>
    intro t pid i hp hpk
    set fid := nextUniqueId t (partBase pid i p.type) with hfid
    have hfresh : fid ∉ t.ids := by
      rw [← has_false_iff]
      exact nextUniqueId_fresh t _
    have hstep : t.appendChild pid fid = .ok (appendedTree t pid fid) :=
      appendChild_ok hp hfresh
    have hp1 : pid ∈ (appendedTree t pid fid).ids :=
      List.mem_append_left _ hp
    have hpk1 : pid ∈ (appendedTree t pid fid).childrenMap.map Prod.fst := by
      show pid ∈ (IdTree.appendToKey t.childrenMap pid fid ++
        [(fid, [])]).map Prod.fst
      rw [List.map_append, appendToKey_keys]
      exact List.mem_append_left _ hpk
    obtain ⟨t', frag, heq, hroot, hids, hkeys, hpm, hch, hlen, hder⟩ :=
      ih (appendedTree t pid fid) pid (i + 1) hp1 hpk1
    refine ⟨t', fid :: frag, ?_, ?_, ?_, ?_, ?_, ?_, ?_, ?_⟩
    · show attachPartsFrom t pid i (p :: rest) = .ok t'
      unfold attachPartsFrom
      rw [← hfid, hstep]
      exact heq
    · exact hroot
    · rw [hids]
      show t.ids ++ [fid] ++ frag = t.ids ++ fid :: frag
      simp
    · rw [hkeys]
      show (IdTree.appendToKey t.childrenMap pid fid ++
          [(fid, [])]).map Prod.fst ++ frag =
        t.childrenMap.map Prod.fst ++ fid :: frag
      rw [List.map_append, appendToKey_keys]
      simp
    · rw [hpm]
      show t.parentMap ++ [(fid, pid)] ++
          List.map (fun f => (f, pid)) frag =
        t.parentMap ++ List.map (fun f => (f, pid)) (fid :: frag)
      simp
    · rw [hch, appendedTree_childrenOf_parent_entry hpk fid]
      simp
    · simp [hlen]
    · intro j pj hj
      cases j with
      | zero =>
        simp only [List.getElem?_cons_zero] at hj
        injection hj with hj1
        refine ⟨fid, by simp, hfresh, ?_⟩
        rw [← hj1, Nat.add_zero]
        exact nextUniqueId_derived t _
      | succ j =>
        simp only [List.getElem?_cons_succ] at hj
        obtain ⟨fid', hf1, hf2, hf3⟩ := hder j pj hj
        refine ⟨fid', by simpa using hf1, ?_, ?_⟩
        · intro hmem
          exact hf2 (List.mem_append_left _ hmem)
        · have : i + 1 + j = i + (j + 1) := by omega
          rwa [this] at hf3

/-- The `attachParts` loop preserves the invariant. -/
theorem attachPartsFrom_wf :
    ∀ (parts : List UIPart) (t : IdTree) (pid : String) (i : Nat)
      (t' : IdTree), WF t → pid ∈ t.ids →
      attachPartsFrom t pid i parts = .ok t' → WF t' := by
  intro parts
  induction parts with
  | nil =>
    intro t pid i t' w _ h
    injection h with h1
    exact h1 ▸ w
  | cons p rest ih =>
    intro t pid i t' w hp h
    unfold attachPartsFrom at h
    set fid := nextUniqueId t (partBase pid i p.type) with hfid
    have hfresh : fid ∉ t.ids := by
      rw [← has_false_iff]
      exact nextUniqueId_fresh t _
    have hstep : t.appendChild pid fid = .ok (appendedTree t pid fid) :=
      appendChild_ok hp hfresh
    rw [hstep] at h
    have w1 : WF (appendedTree t pid fid) :=
      wf_appendChild w hp hfresh
        (nextUniqueId_ne_empty t (partBase_ne_empty pid i p.type))
    exact ih _ pid (i + 1) t' w1 (List.mem_append_left _ hp) h

/-! ## Lemmas: `addMessage` and `beginBranch` -/

/-- Inversion of a successful `addMessage`: both guards passed, the
turn node was appended under the resolved parent, and the parts were
attached under the turn. -/
theorem addMessage_ok_inv {s : ConversationTree} {msg : UIMessage}
    {pid : Option String} {n : String} {s' : ConversationTree}
    (h : addMessage s msg pid = .ok (n, s')) :
    msg.id ≠ "" ∧ msg.id ∉ s.tree.ids ∧
      pid.getD s.lastTopLevelId ∈ s.tree.ids ∧ n = msg.id ∧
      ∃ t2, attachParts (appendedTree s.tree (pid.getD s.lastTopLevelId)
          msg.id) msg.id msg.parts = .ok t2 ∧
        s' = ⟨t2, s.messageIndex ++ [(msg.id, msg)], msg.id⟩ := by
  unfold addMessage at h
  by_cases h1 : msg.id = ""
  · rw [if_pos h1] at h; cases h
  rw [if_neg h1] at h
  by_cases h2 : s.tree.has msg.id
  · rw [if_pos h2] at h; cases h
  rw [if_neg h2] at h
  have h2' : msg.id ∉ s.tree.ids := by
    rw [← has_false_iff]
    simpa using h2
  cases hac : s.tree.appendChild (pid.getD s.lastTopLevelId) msg.id with
  | error e =>
    rw [hac] at h
    dsimp only at h
    obtain ⟨e1, e2⟩ := e
    cases h
  | ok t1 =>
    rw [hac] at h
    dsimp only at h
    obtain ⟨hrp, -, ht1⟩ := appendChild_ok_inv hac
    cases hap : attachParts t1 msg.id msg.parts with
    | error e =>
      rw [hap] at h
      obtain ⟨e1, e2⟩ := e
      dsimp only at h
      cases h
    | ok t2 =>
      rw [hap] at h
      dsimp only at h
      injection h with h3
      injection h3 with h4 h5
      refine ⟨h1, h2', hrp, h4.symm, t2, ?_, h5.symm⟩
      rw [ht1] at hap
      exact hap

/-- A successful `addMessage` with an explicit in-tree parent exists:
both guards pass, the append succeeds, and the loop succeeds. -/
theorem addMessage_ok_of {s : ConversationTree} {msg : UIMessage}
    {pid : Option String} (h1 : msg.id ≠ "")
    (h2 : msg.id ∉ s.tree.ids)
    (h3 : pid.getD s.lastTopLevelId ∈ s.tree.ids) :
    ∃ s', addMessage s msg pid = .ok (msg.id, s') := by
  obtain ⟨t2, frag, heq, -⟩ :=
    attachPartsFrom_spec msg.parts
      (appendedTree s.tree (pid.getD s.lastTopLevelId) msg.id) msg.id 0
      (List.mem_append_right _ (by simp))
      (by
        show msg.id ∈ (IdTree.appendToKey s.tree.childrenMap _ msg.id ++
          [(msg.id, [])]).map Prod.fst
        rw [List.map_append]
        exact List.mem_append_right _ (by simp))
  refine ⟨⟨t2, s.messageIndex ++ [(msg.id, msg)], msg.id⟩, ?_⟩
  unfold addMessage
  rw [if_neg h1, if_neg (by simpa [has_iff] using h2),
    appendChild_ok h3 h2]
  dsimp only
  rw [show attachParts (appendedTree s.tree (pid.getD s.lastTopLevelId)
      msg.id) msg.id msg.parts = .ok t2 from heq]

/-- A failing `addMessage` leaves the state untouched. -/
theorem addMessage_error_state {s : ConversationTree} {msg : UIMessage}
    {pid : Option String} {e : TreeError} {s' : ConversationTree}
    (h : addMessage s msg pid = .error (e, s')) : s' = s := by
  unfold addMessage at h
  by_cases h1 : msg.id = ""
  · rw [if_pos h1] at h
    injection h with h2
    injection h2 with _ h3
    exact h3.symm
  rw [if_neg h1] at h
  by_cases h2 : s.tree.has msg.id
  · rw [if_pos h2] at h
    injection h with h3
    injection h3 with _ h4
    exact h4.symm
  rw [if_neg h2] at h
  have h2' : msg.id ∉ s.tree.ids := by
    rw [← has_false_iff]
    simpa using h2
  cases hac : s.tree.appendChild (pid.getD s.lastTopLevelId) msg.id with
  | error ep =>
    rw [hac] at h
    obtain ⟨e1, e2⟩ := ep
    dsimp only at h
    injection h with h3
    injection h3 with _ h4
    exact h4.symm
  | ok t1 =>
    rw [hac] at h
    dsimp only at h
    obtain ⟨hrp, -, ht1⟩ := appendChild_ok_inv hac
    obtain ⟨t2, frag, heq, -⟩ :=
      attachPartsFrom_spec msg.parts t1 msg.id 0
        (by rw [ht1]; exact List.mem_append_right _ (by simp))
        (by
          rw [ht1]
          show msg.id ∈ (IdTree.appendToKey s.tree.childrenMap _ msg.id ++
            [(msg.id, [])]).map Prod.fst
          rw [List.map_append]
          exact List.mem_append_right _ (by simp))
    rw [show attachParts t1 msg.id msg.parts = .ok t2 from heq] at h
    dsimp only at h
    cases h

/-- Inversion of a successful `beginBranch`. -/
theorem beginBranch_ok_inv {s : ConversationTree} {anchorId label : String}
    {bid : String} {s' : ConversationTree}
    (h : beginBranch s anchorId label = .ok (bid, s')) :
    anchorId ∈ s.tree.ids ∧
      bid = nextUniqueId s.tree (anchorId ++ "::" ++ label) ∧
      s' = ⟨appendedTree s.tree anchorId bid, s.messageIndex, bid⟩ := by
  unfold beginBranch at h
  by_cases h1 : s.tree.has anchorId
  · rw [if_neg (by simpa using h1)] at h
    have ha : anchorId ∈ s.tree.ids := (has_iff _ _).1 h1
    have hfresh : nextUniqueId s.tree (anchorId ++ "::" ++ label) ∉
        s.tree.ids := by
      rw [← has_false_iff]
      exact nextUniqueId_fresh s.tree _
    rw [appendChild_ok ha hfresh] at h
    dsimp only at h
    injection h with h2
    injection h2 with h3 h4
    refine ⟨ha, h3.symm, ?_⟩
    rw [← h3]
    exact h4.symm
  · rw [if_pos (by simpa using h1)] at h
    cases h

/-- A successful `beginBranch` exists whenever the anchor is present. -/
theorem beginBranch_ok_of {s : ConversationTree} {anchorId : String}
    (label : String) (ha : anchorId ∈ s.tree.ids) :
    beginBranch s anchorId label =
      .ok (nextUniqueId s.tree (anchorId ++ "::" ++ label),
        ⟨appendedTree s.tree anchorId
            (nextUniqueId s.tree (anchorId ++ "::" ++ label)),
          s.messageIndex,
          nextUniqueId s.tree (anchorId ++ "::" ++ label)⟩) := by
  unfold beginBranch
  have hfresh : nextUniqueId s.tree (anchorId ++ "::" ++ label) ∉
      s.tree.ids := by
    rw [← has_false_iff]
    exact nextUniqueId_fresh s.tree _
  rw [if_neg (by simp [has_iff]; exact ha), appendChild_ok ha hfresh]

/-- A failing `beginBranch` leaves the state untouched. -/
theorem beginBranch_error_state {s : ConversationTree}
    {anchorId label : String} {e : TreeError} {s' : ConversationTree}
    (h : beginBranch s anchorId label = .error (e, s')) : s' = s := by
  unfold beginBranch at h
  by_cases h1 : s.tree.has anchorId
  · rw [if_neg (by simpa using h1)] at h
    have ha : anchorId ∈ s.tree.ids := (has_iff _ _).1 h1
    have hfresh : nextUniqueId s.tree (anchorId ++ "::" ++ label) ∉
        s.tree.ids := by
      rw [← has_false_iff]
      exact nextUniqueId_fresh s.tree _
    rw [appendChild_ok ha hfresh] at h
    dsimp only at h
    cases h
  · rw [if_pos (by simpa using h1)] at h
    injection h with h2
    injection h2 with _ h3
    exact h3.symm

/-! ## The reachability invariant -/

theorem wf_create (rootId : String) : WF (IdTree.create rootId) := by
  refine ⟨?_, rfl, rfl, rfl, ?_, ?_, ?_, ?_, ?_⟩
  · exact List.nodup_singleton rootId
  · intro c p hlk
    simp [IdTree.create, List.lookup] at hlk
  · intro c p hlk
    simp [IdTree.create, List.lookup] at hlk
  · intro p c
    constructor
    · intro hmem
      by_cases hp : p = rootId
      · subst hp
        simp [IdTree.create, IdTree.childrenOf, List.lookup] at hmem
      · have : (IdTree.create rootId).childrenOf p = [] := by
          unfold IdTree.create IdTree.childrenOf
          rw [lookup_eq_none_of_not_mem (by simpa using fun h => hp h)]
          rfl
        rw [this] at hmem
        cases hmem
    · intro hlk
      simp [IdTree.create, List.lookup] at hlk
  · intro p
    by_cases hp : p = rootId
    · subst hp
      have : (IdTree.create p).childrenOf p = [] := by
        unfold IdTree.create IdTree.childrenOf
        simp [List.lookup]
      rw [this]
      exact List.nodup_nil
    · have : (IdTree.create rootId).childrenOf p = [] := by
        unfold IdTree.create IdTree.childrenOf
        rw [lookup_eq_none_of_not_mem (by simpa using fun h => hp h)]
        rfl
      rw [this]
      exact List.nodup_nil
  · intro id hid hroot
    show id ≠ ""
    rcases List.mem_singleton.1 hid with rfl
    exact absurd rfl hroot

/-- Every reachable state satisfies the invariant. -/
theorem reachable_wfs {s : ConversationTree} (h : Reachable s) : WFS s := by
  induction h with
  | init rootId =>
    exact ⟨wf_create rootId,
      fun k hk => by simp [createConversationTree] at hk,
      by simp [createConversationTree, IdTree.create]⟩
  | add s msg pid n s' _ hok ih =>
    obtain ⟨h1, h2, h3, -, t2, hap, hs'⟩ := addMessage_ok_inv hok
    have w1 : WF (appendedTree s.tree (pid.getD s.lastTopLevelId) msg.id) :=
      wf_appendChild ih.tw h3 h2 h1
    have w2 : WF t2 :=
      attachPartsFrom_wf msg.parts _ msg.id 0 t2 w1
        (List.mem_append_right _ (by simp)) hap
    obtain ⟨t2', frag, heq, -, hids, -⟩ :=
      attachPartsFrom_spec msg.parts
        (appendedTree s.tree (pid.getD s.lastTopLevelId) msg.id) msg.id 0
        (List.mem_append_right _ (by simp))
        (by
          show msg.id ∈ (IdTree.appendToKey s.tree.childrenMap _ msg.id ++
            [(msg.id, [])]).map Prod.fst
          rw [List.map_append]
          exact List.mem_append_right _ (by simp))
    have ht2 : t2' = t2 := by
      rw [show attachParts (appendedTree s.tree (pid.getD s.lastTopLevelId)
          msg.id) msg.id msg.parts = attachPartsFrom _ msg.id 0 msg.parts
        from rfl] at hap
      rw [hap] at heq
      injection heq with h9
      exact h9.symm
    rw [ht2] at hids
    have hsub : ∀ x, x ∈ s.tree.ids → x ∈ t2.ids := by
      intro x hx
      rw [hids]
      exact List.mem_append_left _ (List.mem_append_left _ hx)
    have hmid : msg.id ∈ t2.ids := by
      rw [hids]
      exact List.mem_append_left _ (List.mem_append_right _ (by simp))
    refine hs' ▸ ⟨w2, ?_, ?_⟩
    · intro k hk
      rw [List.map_append] at hk
      rcases List.mem_append.1 hk with hk1 | hk1
      · exact hsub k (ih.msg_keys k hk1)
      · simp only [List.map_cons, List.map_nil, List.mem_singleton] at hk1
        exact hk1 ▸ hmid
    · exact hmid
  | branch s anchorId label bid s' _ hok ih =>
    obtain ⟨ha, hbid, hs'⟩ := beginBranch_ok_inv hok
    have hfresh : bid ∉ s.tree.ids := by
      rw [hbid, ← has_false_iff]
      exact nextUniqueId_fresh s.tree _
    have hbe : bid ≠ "" := by
      rw [hbid]
      apply nextUniqueId_ne_empty
      intro hc
      have h0 : (anchorId ++ "::" ++ label).length = 0 := by rw [hc]; rfl
      rw [String.length_append, String.length_append] at h0
      have h1 : ("::" : String).length = 2 := rfl
      omega
    have w1 : WF (appendedTree s.tree anchorId bid) :=
      wf_appendChild ih.tw ha hfresh hbe
    refine hs' ▸ ⟨w1, ?_, ?_⟩
    · intro k hk
      exact List.mem_append_left _ (ih.msg_keys k hk)
    · exact List.mem_append_right _ (by simp)

/-! ## Lemmas: serialization -/

theorem maybeValidate_id (messages : List UIMessage) (validate : Option Bool) :
    maybeValidate messages validate = messages := by
  unfold maybeValidate
  split <;> rfl

/-- The walk loop computes the spec-side result: the error at the
first violation, otherwise the collected payloads after the
accumulator. -/
theorem serializeWalk_spec (s : ConversationTree) :
    ∀ (path : List String) (current : String) (out : List UIMessage),
      serializeWalk s current path out =
        match specFirstViolation s.tree current path with
        | some (bad, par) => .error (.invalidPath bad par)
        | none => .ok (out ++ specCollectPayloads s path) := by
  intro path
  induction path with
  | nil =>
    intro current out
    simp [serializeWalk, specFirstViolation, specCollectPayloads]
  | cons id rest ih =>
    intro current out
    unfold serializeWalk specFirstViolation
    by_cases hstep : (s.tree.childrenOf current).contains id
    · rw [if_pos hstep, if_pos hstep]
      cases hmsg : s.messageIndex.lookup id with
      | some msg =>
        dsimp only
        rw [ih id (out ++ [msg])]
        have hcol : specCollectPayloads s (id :: rest) =
            msg :: specCollectPayloads s rest := by
          simp [specCollectPayloads, hmsg]
        rw [hcol]
        cases specFirstViolation s.tree id rest with
        | none => simp
        | some bp => rfl
      | none =>
        dsimp only
        rw [ih id out]
        have hcol : specCollectPayloads s (id :: rest) =
            specCollectPayloads s rest := by
          simp [specCollectPayloads, hmsg]
        rw [hcol]
    · rw [if_neg hstep, if_neg hstep]

/-- `serializeFromNodePath` equals its specification. -/
theorem serializeFromNodePath_spec (s : ConversationTree)
    (nodePath : List String) (opts : Option SerializeOptions) :
    serializeFromNodePath s nodePath opts =
      match specFirstViolation s.tree s.tree.rootId nodePath with
      | some (bad, par) => .error (.invalidPath bad par)
      | none => .ok (specCollectPayloads s nodePath) := by
  unfold serializeFromNodePath
  cases nodePath with
  | nil =>
    simp [specFirstViolation, specCollectPayloads, maybeValidate_id]
  | cons id rest =>
    rw [if_neg (by simp)]
    rw [serializeWalk_spec s (id :: rest) s.tree.rootId []]
    cases specFirstViolation s.tree s.tree.rootId (id :: rest) with
    | none => simp [maybeValidate_id]
    | some bp => rfl

/-! ## Lemmas: root paths -/

theorem chain_snoc {α : Type} {R : α → α → Prop} :
    ∀ {a : α} {l : List α} {b c : α}, List.Chain R a l →
      (a :: l).getLast? = some b → R b c → List.Chain R a (l ++ [c]) := by
  intro a l
  induction l generalizing a with
  | nil =>
    intro b c _ hlast hr
    have hab : a = b := by simpa using hlast
    rw [List.nil_append, List.chain_singleton, hab]
    exact hr
  | cons d l ih =>
    intro b c hchain hlast hr
    rw [List.chain_cons] at hchain
    rw [List.cons_append, List.chain_cons]
    refine ⟨hchain.1, ?_⟩
    rw [List.getLast?_cons_cons] at hlast
    exact ih hchain.2 hlast hr

theorem chain_snoc_inv {α : Type} {R : α → α → Prop} :
    ∀ {a : α} {l : List α} {c : α}, List.Chain R a (l ++ [c]) →
      List.Chain R a l ∧ ∃ b, (a :: l).getLast? = some b ∧ R b c := by
  intro a l
  induction l generalizing a with
  | nil =>
    intro c h
    rw [List.nil_append, List.chain_singleton] at h
    exact ⟨List.Chain.nil, a, rfl, h⟩
  | cons d l ih =>
    intro c h
    rw [List.cons_append, List.chain_cons] at h
    obtain ⟨hd, hrest⟩ := h
    obtain ⟨hchain, b, hlast, hr⟩ := ih hrest
    exact ⟨List.chain_cons.2 ⟨hd, hchain⟩, b,
      (List.getLast?_cons_cons ..).trans hlast, hr⟩

theorem isRootPath_root (t : IdTree) : IsRootPath t t.rootId [] :=
  ⟨List.Chain.nil, rfl⟩

theorem isRootPath_snoc {t : IdTree} {p : String} {l : List String}
    (h : IsRootPath t p l) {c : String}
    (hc : t.parentMap.lookup c = some p) : IsRootPath t c (l ++ [c]) := by
  obtain ⟨hchain, hlast⟩ := h
  refine ⟨chain_snoc hchain hlast hc, ?_⟩
  show (t.rootId :: (l ++ [c])).getLast? = some c
  rw [show t.rootId :: (l ++ [c]) = (t.rootId :: l) ++ [c] from rfl]
  exact List.getLast?_concat _

theorem isRootPath_inv {t : IdTree} {x : String} {l : List String}
    (h : IsRootPath t x l) :
    (x = t.rootId ∧ l = []) ∨
      (∃ p l', l = l' ++ [x] ∧ t.parentMap.lookup x = some p ∧
        IsRootPath t p l') := by
  obtain ⟨hchain, hlast⟩ := h
  rcases List.eq_nil_or_concat l with rfl | ⟨l', a, rfl⟩
  · left
    injection hlast with h1
    exact ⟨h1.symm, rfl⟩
  · right
    rw [List.concat_eq_append] at hchain hlast ⊢
    have hax : a = x := by
      rw [show t.rootId :: (l' ++ [a]) = (t.rootId :: l') ++ [a] from rfl,
        List.getLast?_concat] at hlast
      injection hlast
    subst hax
    obtain ⟨hchain', b, hlast', hr⟩ := chain_snoc_inv hchain
    exact ⟨b, l', rfl, hr, hchain', hlast'⟩

theorem isRootPath_unique {t : IdTree} (w : WF t) :
    ∀ (l₁ : List String) (x : String) (l₂ : List String),
      IsRootPath t x l₁ → IsRootPath t x l₂ → l₁ = l₂ := by
  intro l₁
  induction l₁ using List.reverseRecOn with
  | nil =>
    intro x l₂ h₁ h₂
    rcases isRootPath_inv h₁ with ⟨hx, -⟩ | ⟨p, l', hl, -, -⟩
    · rcases isRootPath_inv h₂ with ⟨-, hl₂⟩ | ⟨q, l₂', hl₂, hlk, -⟩
      · exact hl₂.symm
      · rw [hx] at hlk
        rw [wf_root_no_parent w] at hlk
        cases hlk
    · exact absurd hl.symm (List.append_ne_nil_of_right_ne_nil l' (by simp))
  | append_singleton l₁' a ih =>
    intro x l₂ h₁ h₂
    rcases isRootPath_inv h₁ with ⟨hx, hl⟩ | ⟨p, l', hl, hlk, hr⟩
    · exact absurd hl (List.append_ne_nil_of_right_ne_nil l₁' (by simp))
    · obtain ⟨hleft, hright⟩ := List.append_inj' hl (by simp)
      have hax : a = x := by
        injection hright with h1
      subst hax
      subst hleft
      rcases isRootPath_inv h₂ with ⟨hx₂, hl₂⟩ | ⟨q, l₂', hl₂, hlk₂, hr₂⟩
      · rw [hx₂] at hlk
        rw [wf_root_no_parent w] at hlk
        cases hlk
      · rw [hlk] at hlk₂
        injection hlk₂ with hpq
        rw [hl₂, ih p l₂' hr (hpq ▸ hr₂)]

/-- The climb loop of `serializeToNode` computes the root path. -/
theorem climb_isRootPath {t : IdTree} (w : WF t) :
    ∀ (fuel : Nat) (x : String), x ∈ t.ids → t.ids.indexOf x < fuel →
      IsRootPath t x ((climb t fuel x).reverse) := by
  intro fuel
  induction fuel with
  | zero => intro x _ h; omega
  | succ fuel ih =>
    intro x hx hfuel
    by_cases hcond : x = "" ∨ x = t.rootId
    · have hxr : x = t.rootId := by
        rcases hcond with h1 | h1
        · by_contra hne
          exact (w.empty_only_root x hx hne) h1
        · exact h1
      unfold climb
      rw [if_pos hcond, List.reverse_nil, hxr]
      exact isRootPath_root t
    · push_neg at hcond
      obtain ⟨p, hp⟩ := wf_parent_total w hx hcond.2
      unfold climb
      rw [if_neg (by push_neg; exact hcond), hp]
      obtain ⟨hpm, -⟩ := w.parent_mem x p hp
      have hplt : t.ids.indexOf p < fuel := by
        have := w.parent_lt x p hp
        omega
      have hrec := ih p hpm hplt
      rw [List.reverse_cons]
      exact isRootPath_snoc hrec hp

/-- `getRootPath` computes the (unique) root path of a tree node. -/
theorem getRootPath_isRootPath {t : IdTree} (w : WF t) {x : String}
    (hx : x ∈ t.ids) : IsRootPath t x (getRootPath t x) :=
  climb_isRootPath w t.ids.length x hx (List.indexOf_lt_length.mpr hx)

/-! ## Reachability of the fixtures -/

theorem reach_exS0 : Reachable exS0 := Reachable.init "conv"

theorem reach_exS1 : Reachable exS1 :=
  Reachable.add exS0 exU1 none "U1" exS1 reach_exS0 (by decide)

theorem reach_exS2 : Reachable exS2 :=
  Reachable.add exS1 exA1 none "A1" exS2 reach_exS1 (by decide)

theorem reach_exS3 : Reachable exS3 :=
  Reachable.branch exS2 "A1" "edit" "A1::edit" exS3 reach_exS2 (by decide)

theorem reach_exS4 : Reachable exS4 :=
  Reachable.add exS3 exU1edit (some "A1::edit") "U1_edit" exS4 reach_exS3
    (by decide)

theorem reach_exS5 : Reachable exS5 :=
  Reachable.add exS4 exA2 (some "A1::edit") "A2" exS5 reach_exS4 (by decide)

theorem reach_exSC0 : Reachable exSC0 :=
  Reachable.add exS0 exCollider none "U1::part-0:text" exSC0 reach_exS0
    (by decide)

theorem reach_exSC1 : Reachable exSC1 :=
  Reachable.add exSC0 exU1 none "U1" exSC1 reach_exSC0 (by decide)

/-! ## Shared lemma: where `addMessage` attaches the new turn -/

theorem addMessage_sets_parent {s : ConversationTree} {msg : UIMessage}
    {pid : Option String} {n : String} {s' : ConversationTree}
    (hreach : Reachable s) (hok : addMessage s msg pid = .ok (n, s')) :
    s'.tree.parentIdOf msg.id = some (pid.getD s.lastTopLevelId) ∧
      msg.id ∈ s'.tree.childrenOf (pid.getD s.lastTopLevelId) := by
  obtain ⟨h1, h2, h3, -, t2, hap, hs'⟩ := addMessage_ok_inv hok
  have w : WF s.tree := (reachable_wfs hreach).tw
  obtain ⟨t2', frag, heq, -, -, -, hpm, -, -, -⟩ :=
    attachPartsFrom_spec msg.parts
      (appendedTree s.tree (pid.getD s.lastTopLevelId) msg.id) msg.id 0
      (List.mem_append_right _ (by simp))
      (by
        show msg.id ∈ (IdTree.appendToKey s.tree.childrenMap
          (pid.getD s.lastTopLevelId) msg.id ++ [(msg.id, [])]).map Prod.fst
        rw [List.map_append]
        exact List.mem_append_right _ (by simp))
  have ht2 : t2' = t2 := by
    rw [show attachParts (appendedTree s.tree (pid.getD s.lastTopLevelId)
        msg.id) msg.id msg.parts = attachPartsFrom _ msg.id 0 msg.parts
      from rfl] at hap
    rw [hap] at heq
    injection heq with h9
    exact h9.symm
  rw [ht2] at hpm
  have hparent : t2.parentMap.lookup msg.id =
      some (pid.getD s.lastTopLevelId) := by
    rw [hpm]
    exact lookup_append_left _ (appendedTree_parent_new w h2)
  have hreach' : Reachable s' :=
    Reachable.add s msg pid n s' hreach hok
  have w' : WF s'.tree := (reachable_wfs hreach').tw
  constructor
  · show s'.tree.parentMap.lookup msg.id = _
    rw [hs']
    exact hparent
  · rw [w'.edge_iff, hs']
    exact hparent

/-! ## The claims -/

/-- C1: when `addMessage` is called with an explicit `parentId` that is
present in the tree and the call succeeds, the new turn node hangs
directly under exactly that parent — the explicit parent is honored
literally and never rewritten; only with `parentId` omitted is the turn
attached under the default tail `lastTopLevelId` (`lastDefaultParentId`
of the spec). -/
theorem claim_C1_explicit_parent_honored (s : ConversationTree)
    (msg : UIMessage) (p n : String) (s' : ConversationTree)
    (hreach : Reachable s) :
    (s.tree.has p = true → addMessage s msg (some p) = .ok (n, s') →
      s'.tree.parentIdOf msg.id = some p ∧
        msg.id ∈ s'.tree.childrenOf p) ∧
    (addMessage s msg none = .ok (n, s') →
      s'.tree.parentIdOf msg.id = some s.lastTopLevelId ∧
        msg.id ∈ s'.tree.childrenOf s.lastTopLevelId) := by
  constructor
  · intro _ hok
    have h := addMessage_sets_parent hreach hok
    simpa using h
  · intro hok
    have h := addMessage_sets_parent hreach hok
    simpa using h

/-- C1 witness: in the branch scenario of the repository's tests, a
second turn added with the explicit parent `"A1::edit"` lands directly
under `"A1::edit"` (a conditional-rewrite draft would have attached it
under `"U1_edit"` instead). -/
theorem claim_C1_witness :
    exS5.tree.parentIdOf "A2" = some "A1::edit" ∧
      "A2" ∈ exS5.tree.childrenOf "A1::edit" := by
  have h := (claim_C1_explicit_parent_honored exS4 exA2 "A1::edit" "A2" exS5
    reach_exS4).1 (by decide) (by decide)
  exact h

/-- C2: `addMessage` fails with the duplicate-turn error when the turn
id already exists; on success it returns the new turn node's id,
appends the turn under the resolved parent, appends one derived
content-fragment child per part in part order directly under the turn,
registers the payload, and advances the default tail to the turn id. -/
theorem claim_C2_addMessage_effect (s : ConversationTree) (msg : UIMessage)
    (pid : Option String) (n : String) (s' : ConversationTree)
    (hreach : Reachable s) :
    (msg.id ≠ "" → s.tree.has msg.id = true →
      addMessage s msg pid = .error (.duplicateMessage msg.id, s)) ∧
    (addMessage s msg pid = .ok (n, s') →
      n = msg.id ∧
      s'.tree.parentIdOf msg.id = some (pid.getD s.lastTopLevelId) ∧
      (s'.tree.childrenOf msg.id).length = msg.parts.length ∧
      (∀ j pj, msg.parts[j]? = some pj → ∃ fid,
        (s'.tree.childrenOf msg.id)[j]? = some fid ∧
        DerivedFrom fid (partBase msg.id j pj.type)) ∧
      s'.messageIndex.lookup msg.id = some msg ∧
      s'.lastTopLevelId = msg.id) := by
  have w : WF s.tree := (reachable_wfs hreach).tw
  constructor
  · intro hne hdup
    unfold addMessage
    rw [if_neg hne, if_pos hdup]
  · intro hok
    obtain ⟨h1, h2, h3, hn, t2, hap, hs'⟩ := addMessage_ok_inv hok
    obtain ⟨t2', frag, heq, -, -, -, -, hch, hlen, hder⟩ :=
      attachPartsFrom_spec msg.parts
        (appendedTree s.tree (pid.getD s.lastTopLevelId) msg.id) msg.id 0
        (List.mem_append_right _ (by simp))
        (by
          show msg.id ∈ (IdTree.appendToKey s.tree.childrenMap
            (pid.getD s.lastTopLevelId) msg.id ++
              [(msg.id, [])]).map Prod.fst
          rw [List.map_append]
          exact List.mem_append_right _ (by simp))
    have ht2 : t2' = t2 := by
      rw [show attachParts (appendedTree s.tree (pid.getD s.lastTopLevelId)
          msg.id) msg.id msg.parts = attachPartsFrom _ msg.id 0 msg.parts
        from rfl] at hap
      rw [hap] at heq
      injection heq with h9
      exact h9.symm
    rw [ht2] at hch
    have hnew : (appendedTree s.tree (pid.getD s.lastTopLevelId)
        msg.id).childrenOf msg.id = [] :=
      appendedTree_childrenOf_new w h2
    rw [hnew, List.nil_append] at hch
    refine ⟨hn, (addMessage_sets_parent hreach hok).1, ?_, ?_, ?_, ?_⟩
    · rw [hs']
      show (t2.childrenOf msg.id).length = msg.parts.length
      rw [hch]
      exact hlen
    · intro j pj hj
      obtain ⟨fid, hf1, -, hf3⟩ := hder j pj hj
      refine ⟨fid, ?_, ?_⟩
      · rw [hs']
        show (t2.childrenOf msg.id)[j]? = some fid
        rw [hch]
        exact hf1
      · rw [Nat.zero_add] at hf3
        exact hf3
    · rw [hs']
      show (s.messageIndex ++ [(msg.id, msg)]).lookup msg.id = some msg
      apply lookup_snoc_self
      intro hmem
      exact h2 ((reachable_wfs hreach).msg_keys msg.id hmem)
    · rw [hs']

/-- C2 witness: adding `U1` twice fails with the duplicate error and
leaves the state unchanged; the successful first insert attaches `U1`
under the root, creates exactly one fragment child, registers the
payload, and moves the tail to `U1`. -/
theorem claim_C2_witness :
    addMessage exS1 exU1 none = .error (.duplicateMessage "U1", exS1) ∧
    exS1.tree.parentIdOf "U1" = some "conv" ∧
    (exS1.tree.childrenOf "U1").length = exU1.parts.length ∧
    exS1.messageIndex.lookup "U1" = some exU1 ∧
    exS1.lastTopLevelId = "U1" := by
  have h1 := (claim_C2_addMessage_effect exS1 exU1 none "U1" exS1
    reach_exS1).1 (by decide) (by decide)
  have h2 := (claim_C2_addMessage_effect exS0 exU1 none "U1" exS1
    reach_exS0).2 (by decide)
  exact ⟨h1, h2.2.1, h2.2.2.1, h2.2.2.2.2.1, h2.2.2.2.2.2⟩

/-- C3: `serializeFromNodePath` validates the node path as a walk of
direct-child steps starting below the root, fails with the
invalid-path error naming the first offending node and its expected
parent, and for a valid path returns exactly the registered payloads
of the path nodes in path order, skipping structural nodes; the empty
path yields the empty list. -/
theorem claim_C3_serializeFromNodePath (s : ConversationTree)
    (nodePath : List String) (opts : Option SerializeOptions) :
    serializeFromNodePath s [] opts = .ok [] ∧
    serializeFromNodePath s nodePath opts =
      (match specFirstViolation s.tree s.tree.rootId nodePath with
        | some (bad, par) => .error (.invalidPath bad par)
        | none => .ok (specCollectPayloads s nodePath)) :=
  ⟨by
    rw [serializeFromNodePath_spec]
    simp [specFirstViolation, specCollectPayloads],
   serializeFromNodePath_spec s nodePath opts⟩

/-- C4: `beginBranch` fails with the anchor-not-found error when the
anchor is absent; otherwise it derives the branch-root id from the
anchor and label by the standard collision rule, appends it as the new
last child of the anchor, and re-anchors the default tail at the new
branch root. -/
theorem claim_C4_beginBranch_effect (s : ConversationTree)
    (anchorId label : String) (hreach : Reachable s) :
    (s.tree.has anchorId = false →
      beginBranch s anchorId label =
        .error (.anchorNotFound anchorId, s)) ∧
    (s.tree.has anchorId = true →
      ∃ s', beginBranch s anchorId label =
          .ok (nextUniqueId s.tree (anchorId ++ "::" ++ label), s') ∧
        s'.tree.childrenOf anchorId =
          s.tree.childrenOf anchorId ++
            [nextUniqueId s.tree (anchorId ++ "::" ++ label)] ∧
        s'.lastTopLevelId =
          nextUniqueId s.tree (anchorId ++ "::" ++ label)) := by
  have w : WF s.tree := (reachable_wfs hreach).tw
  constructor
  · intro hno
    unfold beginBranch
    rw [if_pos (by rw [hno]; simp)]
  · intro hyes
    have ha : anchorId ∈ s.tree.ids := (has_iff _ _).1 hyes
    refine ⟨_, beginBranch_ok_of label ha, ?_, rfl⟩
    show (appendedTree s.tree anchorId
        (nextUniqueId s.tree (anchorId ++ "::" ++ label))).childrenOf
          anchorId = _
    exact appendedTree_childrenOf_parent w ha _

/-- C4 witness: branching from a missing anchor fails and leaves the
state unchanged; branching from `"A1"` with label `"edit"` appends the
derived branch root as the new last child of `"A1"` and re-anchors the
tail there. -/
theorem claim_C4_witness :
    beginBranch exS2 "missing" "b" = .error (.anchorNotFound "missing", exS2) ∧
    (∃ s', beginBranch exS2 "A1" "edit" =
        .ok (nextUniqueId exS2.tree ("A1" ++ "::" ++ "edit"), s') ∧
      s'.tree.childrenOf "A1" =
        exS2.tree.childrenOf "A1" ++
          [nextUniqueId exS2.tree ("A1" ++ "::" ++ "edit")] ∧
      s'.lastTopLevelId = nextUniqueId exS2.tree ("A1" ++ "::" ++ "edit")) :=
  ⟨(claim_C4_beginBranch_effect exS2 "missing" "b" reach_exS2).1 (by decide),
   (claim_C4_beginBranch_effect exS2 "A1" "edit" reach_exS2).2 (by decide)⟩

/-- C5: `nextUniqueId` is a pure function of the current id set: it
returns the base id when free, and otherwise the base id with the
lowest positive numeric suffix not present in the tree; two trees with
the same membership function get the same derived id. -/
theorem claim_C5_collision_rule (t t' : IdTree) (base : String) :
    (t.has base = false → nextUniqueId t base = base) ∧
    (t.has base = true → ∃ i, 1 ≤ i ∧
      nextUniqueId t base = suffixed base i ∧
      t.has (suffixed base i) = false ∧
      ∀ j, 1 ≤ j → j < i → t.has (suffixed base j) = true) ∧
    ((∀ x, t'.has x = t.has x) → nextUniqueId t' base = nextUniqueId t base) := by
  refine ⟨?_, ?_, ?_⟩
  · intro hfree
    unfold nextUniqueId
    rw [if_pos (by rw [hfree]; simp)]
  · intro hocc
    refine ⟨nextFreeFrom t base 1 (t.ids.length + 1),
      nextFreeFrom_ge t base _ 1, ?_, ?_, ?_⟩
    · unfold nextUniqueId
      rw [if_neg (by rw [hocc]; simp)]
    · apply nextFreeFrom_free
      obtain ⟨j, h1, h2, hfree⟩ := exists_fresh_suffix t base
      exact ⟨j, h1, h2, hfree⟩
    · intro j h1 h2
      exact nextFreeFrom_min t base _ 1 j h1 h2
  · intro hsame
    by_cases hb : t.has base
    · have hb' : t'.has base := by rw [hsame]; exact hb
      unfold nextUniqueId
      rw [if_neg (by rw [hb']; simp), if_neg (by rw [hb]; simp)]
      congr 1
      set i := nextFreeFrom t base 1 (t.ids.length + 1) with hi
      set i' := nextFreeFrom t' base 1 (t'.ids.length + 1) with hi'
      have hfree : t.has (suffixed base i) = false := by
        apply nextFreeFrom_free
        obtain ⟨j, u1, u2, u3⟩ := exists_fresh_suffix t base
        exact ⟨j, u1, u2, u3⟩
      have hfree' : t'.has (suffixed base i') = false := by
        apply nextFreeFrom_free
        obtain ⟨j, u1, u2, u3⟩ := exists_fresh_suffix t' base
        exact ⟨j, u1, u2, u3⟩
      have hge : 1 ≤ i := nextFreeFrom_ge t base _ 1
      have hge' : 1 ≤ i' := nextFreeFrom_ge t' base _ 1
      by_contra hne
      rcases Nat.lt_or_ge i' i with hlt | hge2
      · have := nextFreeFrom_min t base _ 1 i' hge' hlt
        rw [← hsame] at this
        rw [this] at hfree'
        cases hfree'
      · rcases Nat.eq_or_lt_of_le hge2 with heq2 | hlt2
        · exact hne heq2.symm
        · have := nextFreeFrom_min t' base _ 1 i hge hlt2
          rw [hsame] at this
          rw [this] at hfree
          cases hfree
    · have hb' : ¬ (t'.has base = true) := by rw [hsame]; exact hb
      unfold nextUniqueId
      rw [if_pos (by simpa using hb'), if_pos (by simpa using hb)]

/-- C5 witness: with the turn id `"U1::part-0:text"` pre-inserted, the
derived base id for `U1`'s first fragment is occupied, so the fragment
deterministically receives the suffix `-1` instead of failing, exactly
as in the repository's collision test. -/
theorem claim_C5_witness :
    exSC0.tree.has "U1::part-0:text" = true ∧
    (∃ i, 1 ≤ i ∧
      nextUniqueId exSC0.tree "U1::part-0:text" =
        suffixed "U1::part-0:text" i ∧
      exSC0.tree.has (suffixed "U1::part-0:text" i) = false ∧
      ∀ j, 1 ≤ j → j < i →
        exSC0.tree.has (suffixed "U1::part-0:text" j) = true) ∧
    nextUniqueId exSC0.tree "U1::part-0:text" = "U1::part-0:text-1" ∧
    exSC1.tree.childrenOf "U1" = ["U1::part-0:text-1"] :=
  ⟨by decide,
   (claim_C5_collision_rule exSC0.tree exSC0.tree "U1::part-0:text").2.1
     (by decide),
   by decide, by decide⟩

/-- C6: for a reachable state, `serializeToNode` on an absent target
fails with the target-not-found error; on a present target it equals
`serializeFromNodePath` applied to the root path of the target (the
root-exclusive root-to-target id sequence obtained by following parent
links), which `getRootPath` computes. -/
theorem claim_C6_path_round_trip (s : ConversationTree) (x : String)
    (opts : Option SerializeOptions) (hreach : Reachable s) :
    (s.tree.has x = false →
      serializeToNode s x opts = .error (.targetNotFound x)) ∧
    (s.tree.has x = true →
      IsRootPath s.tree x (getRootPath s.tree x) ∧
      ∀ l, IsRootPath s.tree x l →
        serializeToNode s x opts = serializeFromNodePath s l opts) := by
  have w : WF s.tree := (reachable_wfs hreach).tw
  constructor
  · intro hno
    unfold serializeToNode
    rw [if_pos (by rw [hno]; simp)]
  · intro hyes
    have hx : x ∈ s.tree.ids := (has_iff _ _).1 hyes
    have hpath := getRootPath_isRootPath w hx
    refine ⟨hpath, ?_⟩
    intro l hl
    have hluniq : l = getRootPath s.tree x :=
      isRootPath_unique w l x (getRootPath s.tree x) hl hpath
    rw [hluniq]
    unfold serializeToNode
    rw [if_neg (by rw [hyes]; simp)]
    rfl

/-- C6 witness: in the linear fixture, serializing to the absent node
fails with target-not-found, and serializing to `"A1"` equals
serializing the explicit root path `["U1", "A1"]`. -/
theorem claim_C6_witness :
    serializeToNode exS2 "nope" none = .error (.targetNotFound "nope") ∧
    serializeToNode exS2 "A1" none =
      serializeFromNodePath exS2 ["U1", "A1"] none :=
  ⟨(claim_C6_path_round_trip exS2 "nope" none reach_exS2).1 (by decide),
   ((claim_C6_path_round_trip exS2 "A1" none reach_exS2).2 (by decide)).2
     ["U1", "A1"]
     ⟨List.Chain.cons (by decide) (List.Chain.cons (by decide)
       List.Chain.nil), by decide⟩⟩

/-- C7: failing operations are atomic: a failing `addMessage`,
`beginBranch` or `appendChild` returns the state exactly as it was
before the call (the error payload's state equals the input state). -/
theorem claim_C7_atomic_failure (s s' : ConversationTree)
    (msg : UIMessage) (pid : Option String) (anchorId label : String)
    (e e' e'' : TreeError) (t t' : IdTree) (pId cId : String) :
    (addMessage s msg pid = .error (e, s') → s' = s) ∧
    (beginBranch s anchorId label = .error (e', s') → s' = s) ∧
    (t.appendChild pId cId = .error (e'', t') → t' = t) :=
  ⟨addMessage_error_state, beginBranch_error_state, appendChild_error_state⟩

/-- C7 witness: a duplicate `addMessage`, a missing-anchor
`beginBranch` and a missing-parent `appendChild` each return the
pre-call state unchanged. -/
theorem claim_C7_witness :
    exS1 = exS1 ∧ exS2 = exS2 ∧ exS1.tree = exS1.tree :=
  ⟨(claim_C7_atomic_failure exS1 exS1 exU1 none "a" "l"
      (.duplicateMessage "U1") (.anchorNotFound "missing")
      (.parentNotFound "nope") exS1.tree exS1.tree "nope" "z").1 (by decide),
   (claim_C7_atomic_failure exS2 exS2 exU1 none "missing" "l"
      (.duplicateMessage "U1") (.anchorNotFound "missing")
      (.parentNotFound "nope") exS2.tree exS2.tree "nope" "z").2.1
     (by decide),
   (claim_C7_atomic_failure exS1 exS1 exU1 none "a" "l"
      (.duplicateMessage "U1") (.anchorNotFound "missing")
      (.parentNotFound "nope") exS1.tree exS1.tree "nope" "z").2.2
     (by decide)⟩

/-- C8 counterexample: construction performs no validation of the root
id — an empty-string root id is accepted and yields a working tree
rooted at the empty id, rather than failing as the claim states. -/
theorem claim_C8_counterexample :
    (createConversationTree "").tree.rootId = "" ∧
    (createConversationTree "").tree.ids = [""] ∧
    (IdTree.create "").rootId = "" ∧
    (addMessage (createConversationTree "") exU1 none).isOk = true := by
  refine ⟨rfl, rfl, rfl, ?_⟩
  decide

/-- C8 amended: `create(rootId)` / `createConversationTree` accepts any
root id, including the empty string, without validation, and builds the
one-node tree rooted at it, with the default tail at the root. -/
theorem claim_C8_amended (rootId : String) :
    createConversationTree rootId =
      ⟨⟨rootId, [rootId], [(rootId, [])], []⟩, [], rootId⟩ := rfl

/-- C9: global id uniqueness is an invariant of reachable states: the
id index has no duplicates, no children array has a duplicate, no id
appears in two children arrays, and `appendChild` rejects a child id
that exists anywhere in the tree with the duplicate-id error. -/
theorem claim_C9_global_uniqueness (s : ConversationTree) (t : IdTree)
    (pId cId : String) (hreach : Reachable s) :
    s.tree.ids.Nodup ∧
    (∀ p, (s.tree.childrenOf p).Nodup) ∧
    (∀ p q c, c ∈ s.tree.childrenOf p → c ∈ s.tree.childrenOf q → p = q) ∧
    (pId ∈ t.ids → cId ∈ t.ids →
      t.appendChild pId cId = .error (.duplicateId cId, t)) := by
  have w : WF s.tree := (reachable_wfs hreach).tw
  refine ⟨w.nodup, w.children_nodup, ?_, ?_⟩
  · intro p q c hp hq
    have h1 := (w.edge_iff p c).1 hp
    have h2 := (w.edge_iff q c).1 hq
    rw [h1] at h2
    injection h2
  · intro hp hc
    unfold IdTree.appendChild
    rw [if_neg (by simpa using hp), if_pos (by simpa using hc)]

/-- C9 witness: the five-node fixture tree has pairwise distinct ids,
and re-appending the existing id `"U1"` is rejected with the
duplicate-id error. -/
theorem claim_C9_witness :
    exS2.tree.ids.Nodup ∧
    exS2.tree.appendChild "conv" "U1" =
      .error (.duplicateId "U1", exS2.tree) :=
  ⟨(claim_C9_global_uniqueness exS2 exS2.tree "conv" "U1" reach_exS2).1,
   (claim_C9_global_uniqueness exS2 exS2.tree "conv" "U1" reach_exS2).2.2.2
     (by decide) (by decide)⟩

/-- C10: the validation hook is inert: every serialization mode
returns the same result whatever `opts.validate` is — no external
validator is ever invoked, so `validate: true` can never reject or
alter a result. -/
theorem claim_C10_validation_inert (s : ConversationTree)
    (nodePath messageIds : List String) (target : String)
    (o o' : Option SerializeOptions) :
    serializeFromNodePath s nodePath o = serializeFromNodePath s nodePath o' ∧
    serializeToNode s target o = serializeToNode s target o' ∧
    serializeByMessageIds s messageIds o = serializeByMessageIds s messageIds o' := by
  have hpath : ∀ (l : List String),
      serializeFromNodePath s l o = serializeFromNodePath s l o' := by
    intro l
    rw [serializeFromNodePath_spec, serializeFromNodePath_spec]
  refine ⟨hpath nodePath, ?_, ?_⟩
  · unfold serializeToNode
    by_cases hx : s.tree.has target
    · rw [if_neg (by rw [hx]; simp), if_neg (by rw [hx]; simp)]
      exact hpath _
    · rw [if_pos (by simpa using hx), if_pos (by simpa using hx)]
  · unfold serializeByMessageIds
    cases serializeByIdsLoop s messageIds [] with
    | error e => rfl
    | ok out =>
      dsimp only
      rw [maybeValidate_id, maybeValidate_id]

end BranchingSdk
